import Mathlib

/-!
Verification of the `hypothesis-jsonschema` CLI (`src/hypothesis_cli.py`).

The development shallowly embeds the first-party logic of the CLI:
  * JSON values (`JSON`), with Python dicts as insertion-ordered association
    lists and JSON numbers modelled as integers (the schemas and bounds the
    program manipulates are integral; floating point is out of scope);
  * `load_schema` (lines 13-27), parameterised over the filesystem and the
    stdlib JSON parser, which are external to the program;
  * `limit_complexity` (lines 29-43), translated including its in-place
    mutation order: the Python loop iterates over a snapshot
    `list(schema.items())` while assigning into the live dict, which the
    embedding renders as a fold threading the current dictionary `cur`
    alongside the snapshot `todo`;
  * the script-running body of `run_test_script` (lines 71-85) and the exit
    status logic of `main` (lines 98-115).

Python exceptions are modelled with `Except`.  `min(x, c)` in Python returns
its first argument on ties and raises `TypeError` on unordered operands;
Python `bool` participates in numeric comparison (`True = 1`, `False = 0`).
-/

/-- JSON values.  Objects keep insertion order, like Python dicts. -/
inductive JSON where
  | null : JSON
  | bool (b : Bool) : JSON
  | num (n : Int) : JSON
  | str (s : String) : JSON
  | arr (xs : List JSON) : JSON
  | obj (es : List (String × JSON)) : JSON

namespace Cli

/-- Python `schema.get(key)`: the value at `key`, if present. -/
def getVal : List (String × JSON) → String → Option JSON
  | [], _ => none
  | (k, v) :: rest, key => if k = key then some v else getVal rest key

/-- Python `schema[key] = w`: replace the value at `key` (keys keep their
position), appending a fresh entry when the key is absent. -/
def setKey : List (String × JSON) → String → JSON → List (String × JSON)
  | [], key, w => [(key, w)]
  | (k, v) :: rest, key, w =>
    if k = key then (k, w) :: rest else (k, v) :: setKey rest key w

/-- Numeric view of a JSON value under Python comparison: numbers are
themselves, booleans coerce to `1`/`0`, everything else is unordered
against an integer (Python `min` raises `TypeError`). -/
def asNum : JSON → Option Int
  | .num n => some n
  | .bool b => some (if b then 1 else 0)
  | _ => none

/-- True on Python `dict` and `list` values (`isinstance(value, (dict, list))`). -/
def isContainer : JSON → Bool
  | .obj _ => true
  | .arr _ => true
  | _ => false

/-- The three capping branches of `limit_complexity` (lines 33-38): the value
found under the "type" key selects the bound key together with the default
and the ceiling of its cap.  Any other value selects no cap. -/
def tyCap : JSON → Option (String × Int × Int)
  | .str s =>
    if s = "array" then some ("maxItems", 10, 5)
    else if s = "object" then some ("maxProperties", 10, 5)
    else if s = "string" ∨ s = "number" ∨ s = "integer" then some ("maxLength", 100, 20)
    else none
  | _ => none

/-- One capping assignment `schema[key] = min(schema.get(key, dflt), cap)`,
with Python `min` semantics: on a tie or when the existing value is the
smaller, the existing object itself is returned (so a `bool` bound stays a
`bool`); a non-numeric existing value raises `TypeError`. -/
def capBound (cur : List (String × JSON)) (key : String) (dflt cap : Int) :
    Except String (List (String × JSON)) :=
  match getVal cur key with
  | none => .ok (setKey cur key (.num (min dflt cap)))
  | some v =>
    match asNum v with
    | some n => .ok (setKey cur key (if cap < n then .num cap else v))
    | none => .error "TypeError: unorderable types in min"

mutual

/-- `limit_complexity` (lines 29-43).  Dicts are processed by `limitEntries`
over a snapshot of their items, lists element-wise, scalars returned as-is. -/
def limit_complexity : JSON → Except String JSON
  | .obj es =>
    match limitEntries es es with
    | .ok es' => .ok (.obj es')
    | .error e => .error e
  | .arr xs =>
    match limitItems xs with
    | .ok ys => .ok (.arr ys)
    | .error e => .error e
  | .null => .ok .null
  | .bool b => .ok (.bool b)
  | .num n => .ok (.num n)
  | .str s => .ok (.str s)

/-- The loop `for key, value in list(schema.items())` of lines 32-40:
`todo` is the remaining part of the snapshot of the original items, `cur`
the current state of the dict being mutated in place. -/
def limitEntries : List (String × JSON) → List (String × JSON) →
    Except String (List (String × JSON))
  | [], cur => .ok cur
  | (k, v) :: rest, cur =>
    match (if k = "type" then tyCap v else none) with
    | some (bk, d, c) =>
      match capBound cur bk d c with
      | .ok cur1 => limitEntries rest cur1
      | .error e => .error e
    | none =>
      if isContainer v then
        match limit_complexity v with
        | .ok w => limitEntries rest (setKey cur k w)
        | .error e => .error e
      else
        limitEntries rest cur

/-- The list branch `[limit_complexity(item) for item in schema]` (line 42). -/
def limitItems : List JSON → Except String (List JSON)
  | [] => .ok []
  | x :: xs =>
    match limit_complexity x with
    | .ok y =>
      match limitItems xs with
      | .ok ys => .ok (y :: ys)
      | .error e => .error e
    | .error e => .error e

end

/-- Well-formedness of a dict's key list: Python dicts never hold a key twice. -/
def NodupKeys (es : List (String × JSON)) : Prop :=
  (es.map Prod.fst).Nodup

/-- The value the capping assignment stores for a given pre-existing value:
`min(existing or dflt, cap)` with Python `min` semantics, `none` when the
existing value is unordered against an integer. -/
def cappedValue (existing : Option JSON) (dflt cap : Int) : Option JSON :=
  match existing with
  | none => some (.num (min dflt cap))
  | some v =>
    match asNum v with
    | some n => some (if cap < n then .num cap else v)
    | none => none

theorem getVal_setKey_self (es : List (String × JSON)) (k : String) (w : JSON) :
    getVal (setKey es k w) k = some w := by
  induction es with
  | nil => simp [setKey, getVal]
  | cons hd tl ih =>
    obtain ⟨k0, v0⟩ := hd
    by_cases h : k0 = k <;> simp [setKey, getVal, h, ih]

theorem getVal_setKey_ne (es : List (String × JSON)) (k k' : String) (w : JSON)
    (h : k' ≠ k) : getVal (setKey es k w) k' = getVal es k' := by
  induction es with
  | nil =>
    have hne : ¬ k = k' := fun hh => h hh.symm
    simp [setKey, getVal, hne]
  | cons hd tl ih =>
    obtain ⟨k0, v0⟩ := hd
    by_cases h0 : k0 = k
    · have hk : ¬ k = k' := fun hh => h hh.symm
      simp [setKey, getVal, h0, hk]
    · simp [setKey, getVal, h0, ih]

theorem setKey_same (es : List (String × JSON)) (k : String) (w : JSON)
    (h : getVal es k = some w) : setKey es k w = es := by
  induction es with
  | nil => simp [getVal] at h
  | cons hd tl ih =>
    obtain ⟨k0, v0⟩ := hd
    by_cases h0 : k0 = k
    · simp [getVal, h0] at h
      simp [setKey, h0, h]
    · simp [getVal, h0] at h
      simp [setKey, h0, ih h]

theorem mem_of_getVal {es : List (String × JSON)} {k : String} {v : JSON}
    (h : getVal es k = some v) : (k, v) ∈ es := by
  induction es with
  | nil => simp [getVal] at h
  | cons hd tl ih =>
    obtain ⟨k0, v0⟩ := hd
    by_cases h0 : k0 = k
    · subst h0
      simp [getVal] at h
      simp [h]
    · simp [getVal, h0] at h
      exact List.mem_cons_of_mem _ (ih h)

theorem getVal_of_mem {es : List (String × JSON)} {k : String} {v : JSON}
    (hnd : NodupKeys es) (h : (k, v) ∈ es) : getVal es k = some v := by
  induction es with
  | nil => simp at h
  | cons hd tl ih =>
    obtain ⟨k0, v0⟩ := hd
    have hcons : (k0 :: tl.map Prod.fst).Nodup := by simpa [NodupKeys] using hnd
    obtain ⟨hni, hnd'⟩ := List.nodup_cons.mp hcons
    rcases List.mem_cons.mp h with h1 | h1
    · cases h1
      simp [getVal]
    · have hk0 : k0 ≠ k := by
        intro he
        subst he
        exact hni (List.mem_map.mpr ⟨(k0, v), h1, rfl⟩)
      have hnd2 : NodupKeys tl := hnd'
      simp [getVal, hk0]
      exact ih hnd2 h1

theorem getVal_none_iff (es : List (String × JSON)) (k : String) :
    getVal es k = none ↔ k ∉ es.map Prod.fst := by
  induction es with
  | nil => simp [getVal]
  | cons hd tl ih =>
    obtain ⟨k0, v0⟩ := hd
    by_cases h0 : k0 = k
    · simp [getVal, h0]
    · simp [getVal, h0, ih, Ne.symm h0]

theorem keys_setKey_subset (es : List (String × JSON)) (k : String) (w : JSON) :
    ∀ k', k' ∈ (setKey es k w).map Prod.fst → k' ∈ es.map Prod.fst ∨ k' = k := by
  intro k' h
  by_cases hk : k' = k
  · right; exact hk
  · left
    have h1 : getVal (setKey es k w) k' ≠ none := by
      intro hn
      exact ((getVal_none_iff (setKey es k w) k').mp hn) h
    have h2 : getVal es k' ≠ none := by
      rw [← getVal_setKey_ne es k k' w hk]
      exact h1
    by_contra hmem
    exact h2 ((getVal_none_iff es k').mpr hmem)

theorem nodupKeys_setKey (es : List (String × JSON)) (k : String) (w : JSON)
    (hnd : NodupKeys es) : NodupKeys (setKey es k w) := by
  induction es with
  | nil => simp [setKey, NodupKeys]
  | cons hd tl ih =>
    obtain ⟨k0, v0⟩ := hd
    have hcons : (k0 :: tl.map Prod.fst).Nodup := by simpa [NodupKeys] using hnd
    obtain ⟨hni, hnd'⟩ := List.nodup_cons.mp hcons
    by_cases h0 : k0 = k
    · have : NodupKeys ((k0, w) :: tl) := by
        simpa [NodupKeys] using List.nodup_cons.mpr ⟨hni, hnd'⟩
      simpa [setKey, h0] using this
    · have htl : NodupKeys (setKey tl k w) := ih hnd'
      have hnotin : k0 ∉ (setKey tl k w).map Prod.fst := by
        intro hmem
        rcases keys_setKey_subset tl k w k0 hmem with h | h
        · exact hni h
        · exact h0 h
      have : NodupKeys ((k0, v0) :: setKey tl k w) := by
        simpa [NodupKeys] using List.nodup_cons.mpr ⟨hnotin, htl⟩
      simpa [setKey, h0] using this

theorem mem_setKey {es : List (String × JSON)} {k k' : String} {v' w : JSON}
    (h : (k', v') ∈ setKey es k w) : (k', v') ∈ es ∨ (k' = k ∧ v' = w) := by
  induction es with
  | nil =>
    simp [setKey] at h
    right
    exact ⟨h.1, h.2⟩
  | cons hd tl ih =>
    obtain ⟨k0, v0⟩ := hd
    by_cases h0 : k0 = k
    · subst h0
      simp [setKey] at h
      rcases h with ⟨h1, h2⟩ | h
      · right; exact ⟨h1, h2⟩
      · left; simp [h]
    · simp [setKey, h0] at h
      rcases h with ⟨h1, h2⟩ | h
      · left; simp [h1, h2]
      · rcases ih h with h3 | h3
        · left; simp [h3]
        · right; exact h3

theorem nodupKeys_cons {k : String} {v : JSON} {tl : List (String × JSON)}
    (h : NodupKeys ((k, v) :: tl)) : k ∉ tl.map Prod.fst ∧ NodupKeys tl := by
  have hcons : (k :: tl.map Prod.fst).Nodup := by simpa [NodupKeys] using h
  exact List.nodup_cons.mp hcons

theorem tyCap_cases {u : JSON} {bk : String} {d c : Int}
    (h : tyCap u = some (bk, d, c)) :
    (u = .str "array" ∧ bk = "maxItems" ∧ d = 10 ∧ c = 5) ∨
    (u = .str "object" ∧ bk = "maxProperties" ∧ d = 10 ∧ c = 5) ∨
    ((u = .str "string" ∨ u = .str "number" ∨ u = .str "integer") ∧
      bk = "maxLength" ∧ d = 100 ∧ c = 20) := by
  cases u with
  | str s =>
    by_cases h1 : s = "array"
    · subst h1
      simp [tyCap] at h
      left
      exact ⟨rfl, h.1.symm, h.2.1.symm, h.2.2.symm⟩
    · by_cases h2 : s = "object"
      · subst h2
        simp [tyCap] at h
        right; left
        exact ⟨rfl, h.1.symm, h.2.1.symm, h.2.2.symm⟩
      · by_cases h3 : s = "string" ∨ s = "number" ∨ s = "integer"
        · simp [tyCap, h1, h2, h3] at h
          right; right
          refine ⟨?_, h.1.symm, h.2.1.symm, h.2.2.symm⟩
          rcases h3 with h3 | h3 | h3 <;> simp [h3]
        · simp [tyCap, h1, h2, h3] at h
  | null => simp [tyCap] at h
  | bool b => simp [tyCap] at h
  | num n => simp [tyCap] at h
  | arr xs => simp [tyCap] at h
  | obj es => simp [tyCap] at h

theorem tyCap_bk_ne_type {u : JSON} {bk : String} {d c : Int}
    (h : tyCap u = some (bk, d, c)) : bk ≠ "type" := by
  rcases tyCap_cases h with ⟨_, hbk, _, _⟩ | ⟨_, hbk, _, _⟩ | ⟨_, hbk, _, _⟩ <;>
    subst hbk <;> decide

theorem tyCap_arg_str {u : JSON} {bk : String} {d c : Int}
    (h : tyCap u = some (bk, d, c)) : ∃ s, u = .str s := by
  rcases tyCap_cases h with ⟨hu, _⟩ | ⟨hu, _⟩ | ⟨hu, _⟩
  · exact ⟨_, hu⟩
  · exact ⟨_, hu⟩
  · rcases hu with hu | hu | hu <;> exact ⟨_, hu⟩

theorem asNum_of_container {w : JSON} (h : isContainer w = true) :
    asNum w = none := by
  cases w <;> simp [isContainer] at h <;> simp [asNum]

theorem lc_scalar (j : JSON) (h : isContainer j = false) :
    limit_complexity j = .ok j := by
  cases j <;> simp [isContainer] at h <;> simp [limit_complexity]

theorem lc_obj_inv {es : List (String × JSON)} {j' : JSON}
    (h : limit_complexity (.obj es) = .ok j') :
    ∃ es', j' = .obj es' ∧ limitEntries es es = .ok es' := by
  simp only [limit_complexity] at h
  cases he : limitEntries es es with
  | ok es2 =>
    rw [he] at h
    injection h with h1
    exact ⟨es2, h1.symm, rfl⟩
  | error e =>
    rw [he] at h
    simp at h

theorem lc_arr_inv {xs : List JSON} {j' : JSON}
    (h : limit_complexity (.arr xs) = .ok j') :
    ∃ ys, j' = .arr ys ∧ limitItems xs = .ok ys := by
  simp only [limit_complexity] at h
  cases he : limitItems xs with
  | ok ys =>
    rw [he] at h
    injection h with h1
    exact ⟨ys, h1.symm, rfl⟩
  | error e =>
    rw [he] at h
    simp at h

theorem lc_shape {v w : JSON} (h : limit_complexity v = .ok w) :
    isContainer w = isContainer v := by
  cases v with
  | obj es =>
    obtain ⟨es', h1, _⟩ := lc_obj_inv h
    subst h1
    rfl
  | arr xs =>
    obtain ⟨ys, h1, _⟩ := lc_arr_inv h
    subst h1
    rfl
  | null =>
    simp only [limit_complexity] at h
    injection h with h1
    rw [← h1]
  | bool b =>
    simp only [limit_complexity] at h
    injection h with h1
    rw [← h1]
  | num n =>
    simp only [limit_complexity] at h
    injection h with h1
    rw [← h1]
  | str s =>
    simp only [limit_complexity] at h
    injection h with h1
    rw [← h1]

theorem lc_scalar_inv {v w : JSON} (h : limit_complexity v = .ok w)
    (hs : isContainer v = false) : w = v := by
  rw [lc_scalar v hs] at h
  injection h with h1
  exact h1.symm

theorem limitItems_forall2 : ∀ {xs ys : List JSON}, limitItems xs = .ok ys →
    List.Forall₂ (fun x y => limit_complexity x = .ok y) xs ys := by
  intro xs
  induction xs with
  | nil =>
    intro ys h
    simp only [limitItems] at h
    injection h with h1
    rw [← h1]
    exact .nil
  | cons x xs ih =>
    intro ys h
    simp only [limitItems] at h
    cases hx : limit_complexity x with
    | ok y =>
      rw [hx] at h
      cases hxs : limitItems xs with
      | ok ys0 =>
        rw [hxs] at h
        injection h with h1
        rw [← h1]
        exact .cons hx (ih hxs)
      | error e =>
        rw [hxs] at h
        simp at h
    | error e =>
      rw [hx] at h
      simp at h

theorem capBound_eq (cur : List (String × JSON)) (key : String) (d c : Int) :
    capBound cur key d c =
      match cappedValue (getVal cur key) d c with
      | some w => .ok (setKey cur key w)
      | none => .error "TypeError: unorderable types in min" := by
  unfold capBound cappedValue
  cases getVal cur key with
  | none => rfl
  | some v => cases v <;> rfl

theorem capBound_ok_inv {cur out : List (String × JSON)} {key : String} {d c : Int}
    (h : capBound cur key d c = .ok out) :
    ∃ w, cappedValue (getVal cur key) d c = some w ∧ out = setKey cur key w := by
  rw [capBound_eq] at h
  cases hc : cappedValue (getVal cur key) d c with
  | some w =>
    rw [hc] at h
    injection h with h1
    exact ⟨w, rfl, h1.symm⟩
  | none =>
    rw [hc] at h
    simp at h

theorem limitEntries_nil_inv {cur cur' : List (String × JSON)}
    (h : limitEntries [] cur = .ok cur') : cur' = cur := by
  simp only [limitEntries] at h
  injection h with h1
  exact h1.symm

theorem limitEntries_cons_inv {k : String} {v : JSON}
    {rest cur cur' : List (String × JSON)}
    (h : limitEntries ((k, v) :: rest) cur = .ok cur') :
    (∃ bk d c cur1, k = "type" ∧ tyCap v = some (bk, d, c) ∧
        capBound cur bk d c = .ok cur1 ∧ limitEntries rest cur1 = .ok cur') ∨
    ((k = "type" → tyCap v = none) ∧ isContainer v = true ∧
        ∃ w, limit_complexity v = .ok w ∧
          limitEntries rest (setKey cur k w) = .ok cur') ∨
    ((k = "type" → tyCap v = none) ∧ isContainer v = false ∧
        limitEntries rest cur = .ok cur') := by
  simp only [limitEntries] at h
  by_cases hk : k = "type"
  · subst hk
    rw [if_pos rfl] at h
    cases htc : tyCap v with
    | some bdc =>
      obtain ⟨bk, d, c⟩ := bdc
      rw [htc] at h
      simp only [] at h
      cases hcb : capBound cur bk d c with
      | ok cur1 =>
        rw [hcb] at h
        simp only [] at h
        exact Or.inl ⟨bk, d, c, cur1, rfl, rfl, hcb, h⟩
      | error e =>
        rw [hcb] at h
        simp at h
    | none =>
      rw [htc] at h
      simp only [] at h
      by_cases hcv : isContainer v = true
      · rw [if_pos hcv] at h
        cases hlc : limit_complexity v with
        | ok w =>
          rw [hlc] at h
          simp only [] at h
          exact Or.inr (Or.inl ⟨fun _ => rfl, hcv, w, rfl, h⟩)
        | error e =>
          rw [hlc] at h
          simp at h
      · rw [if_neg hcv] at h
        exact Or.inr (Or.inr ⟨fun _ => rfl, by simpa using hcv, h⟩)
  · rw [if_neg hk] at h
    simp only [] at h
    by_cases hcv : isContainer v = true
    · rw [if_pos hcv] at h
      cases hlc : limit_complexity v with
      | ok w =>
        rw [hlc] at h
        simp only [] at h
        exact Or.inr (Or.inl ⟨fun ht => absurd ht hk, hcv, w, rfl, h⟩)
      | error e =>
        rw [hlc] at h
        simp at h
    · rw [if_neg hcv] at h
      exact Or.inr (Or.inr ⟨fun ht => absurd ht hk, by simpa using hcv, h⟩)

theorem limitEntries_nodup :
    ∀ (todo cur cur' : List (String × JSON)),
      limitEntries todo cur = .ok cur' → NodupKeys cur → NodupKeys cur' := by
  intro todo
  induction todo with
  | nil =>
    intro cur cur' h hnd
    rw [limitEntries_nil_inv h]
    exact hnd
  | cons hd rest ih =>
    obtain ⟨k, v⟩ := hd
    intro cur cur' h hnd
    rcases limitEntries_cons_inv h with
      ⟨bk, d, c, cur1, hk, htc, hcb, hrest⟩ | ⟨hnt, hcv, w, hlc, hrest⟩ | ⟨hnt, hcv, hrest⟩
    · obtain ⟨w, hw, hcur1⟩ := capBound_ok_inv hcb
      exact ih cur1 cur' hrest (hcur1 ▸ nodupKeys_setKey cur bk w hnd)
    · exact ih _ cur' hrest (nodupKeys_setKey cur k w hnd)
    · exact ih cur cur' hrest hnd

theorem limitEntries_preserve :
    ∀ (todo cur cur' : List (String × JSON)) (K : String),
      limitEntries todo cur = .ok cur' →
      (∀ v bk d c, ("type", v) ∈ todo → tyCap v = some (bk, d, c) → bk ≠ K) →
      (∀ v, (K, v) ∈ todo → isContainer v = false) →
      getVal cur' K = getVal cur K := by
  intro todo
  induction todo with
  | nil =>
    intro cur cur' K h _ _
    rw [limitEntries_nil_inv h]
  | cons hd rest ih =>
    obtain ⟨k, v⟩ := hd
    intro cur cur' K h htrig hcont
    rcases limitEntries_cons_inv h with
      ⟨bk, d, c, cur1, hk, htc, hcb, hrest⟩ | ⟨hnt, hcv, w, hlc, hrest⟩ | ⟨hnt, hcv, hrest⟩
    · subst hk
      have hbkK : bk ≠ K := htrig v bk d c (List.mem_cons_self _ _) htc
      obtain ⟨w, hw, hcur1⟩ := capBound_ok_inv hcb
      have h1 : getVal cur' K = getVal cur1 K :=
        ih cur1 cur' K hrest
          (fun v' bk' d' c' hm htc' =>
            htrig v' bk' d' c' (List.mem_cons_of_mem _ hm) htc')
          (fun v' hm => hcont v' (List.mem_cons_of_mem _ hm))
      rw [h1, hcur1, getVal_setKey_ne _ _ _ _ (Ne.symm hbkK)]
    · have hkK : k ≠ K := by
        intro he
        subst he
        rw [hcont v (List.mem_cons_self _ _)] at hcv
        exact Bool.false_ne_true hcv
      have h1 : getVal cur' K = getVal (setKey cur k w) K :=
        ih _ cur' K hrest
          (fun v' bk' d' c' hm htc' =>
            htrig v' bk' d' c' (List.mem_cons_of_mem _ hm) htc')
          (fun v' hm => hcont v' (List.mem_cons_of_mem _ hm))
      rw [h1, getVal_setKey_ne _ _ _ _ (Ne.symm hkK)]
    · exact ih cur cur' K hrest
        (fun v' bk' d' c' hm htc' =>
          htrig v' bk' d' c' (List.mem_cons_of_mem _ hm) htc')
        (fun v' hm => hcont v' (List.mem_cons_of_mem _ hm))

theorem limitEntries_trigger :
    ∀ (todo cur cur' : List (String × JSON)) (u : JSON) (bk : String) (d c : Int),
      limitEntries todo cur = .ok cur' →
      NodupKeys todo →
      ("type", u) ∈ todo → tyCap u = some (bk, d, c) →
      (∀ v, (bk, v) ∈ todo → getVal cur bk = some v) →
      ∃ w, cappedValue (getVal cur bk) d c = some w ∧ getVal cur' bk = some w := by
  intro todo
  induction todo with
  | nil =>
    intro cur cur' u bk d c h hnd hmem htc hinv
    simp at hmem
  | cons hd rest ih =>
    obtain ⟨k, v⟩ := hd
    intro cur cur' u bk d c h hnd hmem htc hinv
    obtain ⟨hknotin, hndrest⟩ := nodupKeys_cons hnd
    rcases limitEntries_cons_inv h with
      ⟨bk2, d2, c2, cur1, hk, htc2, hcb, hrest⟩ | ⟨hnt, hcv, w0, hlc, hrest⟩ |
      ⟨hnt, hcv, hrest⟩
    · subst hk
      have huv : u = v := by
        rcases List.mem_cons.mp hmem with h1 | h1
        · injection h1 with h1a h1b
        · exact absurd (List.mem_map.mpr ⟨("type", u), h1, rfl⟩) hknotin
      subst huv
      rw [htc] at htc2
      injection htc2 with htc3
      obtain ⟨hbk, hdc⟩ := Prod.mk.injEq .. ▸ htc3
      obtain ⟨hd2, hc2⟩ := Prod.mk.injEq .. ▸ hdc
      subst hbk; subst hd2; subst hc2
      obtain ⟨w, hw, hcur1⟩ := capBound_ok_inv hcb
      have hpres : getVal cur' bk = getVal cur1 bk :=
        limitEntries_preserve rest cur1 cur' bk hrest
          (fun v' bk' d' c' hm _ =>
            absurd (List.mem_map.mpr ⟨("type", v'), hm, rfl⟩) hknotin)
          (fun v' hm => by
            have hg : getVal cur bk = some v' :=
              hinv v' (List.mem_cons_of_mem _ hm)
            rw [hg] at hw
            by_contra hcc
            have hcc' : isContainer v' = true := by
              cases hx : isContainer v' with
              | true => rfl
              | false => exact absurd hx hcc
            simp [cappedValue, asNum_of_container hcc'] at hw)
      refine ⟨w, hw, ?_⟩
      rw [hpres, hcur1, getVal_setKey_self]
    · have hmem' : ("type", u) ∈ rest := by
        rcases List.mem_cons.mp hmem with h1 | h1
        · injection h1 with h1a h1b
          rw [h1b] at htc
          rw [hnt h1a.symm] at htc
          simp at htc
        · exact h1
      by_cases hkbk : k = bk
      · subst hkbk
        have hg : getVal cur k = some v := hinv v (List.mem_cons_self _ _)
        have hinv' : ∀ v', (k, v') ∈ rest → getVal (setKey cur k w0) k = some v' := by
          intro v' hm
          exact absurd (List.mem_map.mpr ⟨(k, v'), hm, rfl⟩) hknotin
        obtain ⟨w, hw, _⟩ := ih (setKey cur k w0) cur' u k d c hrest hndrest hmem' htc hinv'
        rw [getVal_setKey_self] at hw
        have hw0c : isContainer w0 = true := by
          rw [lc_shape hlc]
          exact hcv
        simp [cappedValue, asNum_of_container hw0c] at hw
      · have hinv' : ∀ v', (bk, v') ∈ rest → getVal (setKey cur k w0) bk = some v' := by
          intro v' hm
          rw [getVal_setKey_ne _ _ _ _ (fun he => hkbk he.symm)]
          exact hinv v' (List.mem_cons_of_mem _ hm)
        obtain ⟨w, hw, hfin⟩ :=
          ih (setKey cur k w0) cur' u bk d c hrest hndrest hmem' htc hinv'
        rw [getVal_setKey_ne _ _ _ _ (fun he => hkbk he.symm)] at hw
        exact ⟨w, hw, hfin⟩
    · have hmem' : ("type", u) ∈ rest := by
        rcases List.mem_cons.mp hmem with h1 | h1
        · injection h1 with h1a h1b
          rw [h1b] at htc
          rw [hnt h1a.symm] at htc
          simp at htc
        · exact h1
      exact ih cur cur' u bk d c hrest hndrest hmem' htc
        (fun v' hm => hinv v' (List.mem_cons_of_mem _ hm))

theorem limitEntries_notrig :
    ∀ (todo cur cur' : List (String × JSON)) (k : String) (v : JSON),
      limitEntries todo cur = .ok cur' →
      NodupKeys todo →
      (∀ u bk d c, ("type", u) ∈ todo → tyCap u = some (bk, d, c) → bk ≠ k) →
      (k, v) ∈ todo → getVal cur k = some v →
      ∃ w, limit_complexity v = .ok w ∧ getVal cur' k = some w := by
  intro todo
  induction todo with
  | nil =>
    intro cur cur' k v h hnd htrig hmem hg
    simp at hmem
  | cons hd rest ih =>
    obtain ⟨k0, v0⟩ := hd
    intro cur cur' k v h hnd htrig hmem hg
    obtain ⟨hknotin, hndrest⟩ := nodupKeys_cons hnd
    rcases limitEntries_cons_inv h with
      ⟨bk, d, c, cur1, hk, htc, hcb, hrest⟩ | ⟨hnt, hcv, w0, hlc, hrest⟩ |
      ⟨hnt, hcv, hrest⟩
    · subst hk
      obtain ⟨w1, hw1, hcur1⟩ := capBound_ok_inv hcb
      have hbkne : bk ≠ k := htrig v0 bk d c (List.mem_cons_self _ _) htc
      rcases List.mem_cons.mp hmem with h1 | h1
      · -- the tracked entry is the "type" entry itself
        injection h1 with h1a h1b
        subst h1a
        subst h1b
        obtain ⟨s, hs⟩ := tyCap_arg_str htc
        subst hs
        refine ⟨.str s, by simp [limit_complexity], ?_⟩
        have hbknt : bk ≠ "type" := tyCap_bk_ne_type htc
        have hpres : getVal cur' "type" = getVal cur1 "type" :=
          limitEntries_preserve rest cur1 cur' "type" hrest
            (fun v' bk' d' c' hm _ =>
              absurd (List.mem_map.mpr ⟨("type", v'), hm, rfl⟩) hknotin)
            (fun v' hm =>
              absurd (List.mem_map.mpr ⟨("type", v'), hm, rfl⟩) hknotin)
        rw [hpres, hcur1, getVal_setKey_ne _ _ _ _ (Ne.symm hbknt)]
        exact hg
      · refine ih cur1 cur' k v hrest hndrest
          (fun u' bk' d' c' hm htc' =>
            htrig u' bk' d' c' (List.mem_cons_of_mem _ hm) htc') h1 ?_
        rw [hcur1, getVal_setKey_ne _ _ _ _ (Ne.symm hbkne)]
        exact hg
    · rcases List.mem_cons.mp hmem with h1 | h1
      · rw [Prod.mk.injEq] at h1
        obtain ⟨h1a, h1b⟩ := h1
        rw [← h1a] at hrest hknotin
        rw [← h1b] at hlc
        refine ⟨w0, hlc, ?_⟩
        have hpres : getVal cur' k = getVal (setKey cur k w0) k :=
          limitEntries_preserve rest (setKey cur k w0) cur' k hrest
            (fun v' bk' d' c' hm htc' =>
              htrig v' bk' d' c' (List.mem_cons_of_mem _ hm) htc')
            (fun v' hm =>
              absurd (List.mem_map.mpr ⟨(k, v'), hm, rfl⟩) hknotin)
        rw [hpres, getVal_setKey_self]
      · have hkne : k0 ≠ k := by
          intro he
          refine hknotin ?_
          rw [he]
          exact List.mem_map.mpr ⟨(k, v), h1, rfl⟩
        refine ih (setKey cur k0 w0) cur' k v hrest hndrest
          (fun u' bk' d' c' hm htc' =>
            htrig u' bk' d' c' (List.mem_cons_of_mem _ hm) htc') h1 ?_
        rw [getVal_setKey_ne _ _ _ _ (Ne.symm hkne)]
        exact hg
    · rcases List.mem_cons.mp hmem with h1 | h1
      · rw [Prod.mk.injEq] at h1
        obtain ⟨h1a, h1b⟩ := h1
        rw [← h1a] at hknotin
        rw [← h1b] at hcv
        refine ⟨v, lc_scalar v hcv, ?_⟩
        have hpres : getVal cur' k = getVal cur k :=
          limitEntries_preserve rest cur cur' k hrest
            (fun v' bk' d' c' hm htc' =>
              htrig v' bk' d' c' (List.mem_cons_of_mem _ hm) htc')
            (fun v' hm =>
              absurd (List.mem_map.mpr ⟨(k, v'), hm, rfl⟩) hknotin)
        rw [hpres]
        exact hg
      · exact ih cur cur' k v hrest hndrest
          (fun u' bk' d' c' hm htc' =>
            htrig u' bk' d' c' (List.mem_cons_of_mem _ hm) htc') h1 hg

theorem cappedValue_none (d c : Int) :
    cappedValue none d c = some (.num (min d c)) := rfl

theorem cappedValue_num (n d c : Int) :
    cappedValue (some (.num n)) d c = some (.num (min n c)) := by
  simp only [cappedValue, asNum]
  by_cases h : c < n
  · rw [if_pos h, min_eq_right (le_of_lt h)]
  · rw [if_neg h, min_eq_left (not_lt.mp h)]

theorem cappedValue_le {o : Option JSON} {d c : Int} {w : JSON}
    (h : cappedValue o d c = some w) :
    ∃ m, asNum w = some m ∧ m ≤ c := by
  cases o with
  | none =>
    rw [cappedValue_none] at h
    injection h with h1
    rw [← h1]
    exact ⟨min d c, rfl, min_le_right d c⟩
  | some v =>
    simp only [cappedValue] at h
    cases ha : asNum v with
    | some n =>
      rw [ha] at h
      simp only [] at h
      injection h with h1
      by_cases hc : c < n
      · rw [if_pos hc] at h1
        rw [← h1]
        exact ⟨c, rfl, le_refl c⟩
      · rw [if_neg hc] at h1
        rw [← h1]
        exact ⟨n, ha, not_lt.mp hc⟩
    | none =>
      rw [ha] at h
      simp at h

theorem limited_obj_trigger (es es' : List (String × JSON)) (u : JSON)
    (bk : String) (d c : Int)
    (hnd : NodupKeys es)
    (hent : limitEntries es es = .ok es')
    (hty : getVal es "type" = some u)
    (htc : tyCap u = some (bk, d, c)) :
    ∃ w, cappedValue (getVal es bk) d c = some w ∧ getVal es' bk = some w :=
  limitEntries_trigger es es es' u bk d c hent hnd (mem_of_getVal hty) htc
    (fun v hm => getVal_of_mem hnd hm)

theorem obj_key_value (es es' : List (String × JSON)) (k : String) (v : JSON)
    (hnd : NodupKeys es)
    (hent : limitEntries es es = .ok es')
    (hg : getVal es k = some v)
    (hnotrig : ∀ u bk d c, getVal es "type" = some u →
      tyCap u = some (bk, d, c) → bk ≠ k) :
    ∃ w, limit_complexity v = .ok w ∧ getVal es' k = some w :=
  limitEntries_notrig es es es' k v hent hnd
    (fun u bk d c hm htc => hnotrig u bk d c (getVal_of_mem hnd hm) htc)
    (mem_of_getVal hg) hg

/-- C1: for every mapping node of the schema tree, the Complexity Limiter sets
bounds by exactly the source formulas: a node with `"type": "array"` gets
`maxItems = min(existing maxItems, or 10 if absent, 5)`; with
`"type": "object"` gets `maxProperties = min(existing, or 10 if absent, 5)`;
with `"type"` equal to `"string"`, `"number"` or `"integer"` gets
`maxLength = min(existing maxLength, or 100 if absent, 20)`.  (Every mapping
node of the tree is itself an input of `limit_complexity`, so the statement
over an arbitrary object input covers every node.) -/
theorem C1_limiter_bound_formulas
    (es : List (String × JSON)) (j' : JSON)
    (hnd : NodupKeys es)
    (h : limit_complexity (.obj es) = .ok j') :
    ∃ es', j' = .obj es' ∧
      (getVal es "type" = some (.str "array") →
        (getVal es "maxItems" = none → getVal es' "maxItems" = some (.num 5)) ∧
        (∀ n : Int, getVal es "maxItems" = some (.num n) →
          getVal es' "maxItems" = some (.num (min n 5)))) ∧
      (getVal es "type" = some (.str "object") →
        (getVal es "maxProperties" = none →
          getVal es' "maxProperties" = some (.num 5)) ∧
        (∀ n : Int, getVal es "maxProperties" = some (.num n) →
          getVal es' "maxProperties" = some (.num (min n 5)))) ∧
      (∀ t, (t = "string" ∨ t = "number" ∨ t = "integer") →
        getVal es "type" = some (.str t) →
        (getVal es "maxLength" = none → getVal es' "maxLength" = some (.num 20)) ∧
        (∀ n : Int, getVal es "maxLength" = some (.num n) →
          getVal es' "maxLength" = some (.num (min n 20)))) := by
  obtain ⟨es', hj, hent⟩ := lc_obj_inv h
  have hcase : ∀ (u : JSON) (bk : String) (d c : Int),
      getVal es "type" = some u → tyCap u = some (bk, d, c) →
      (getVal es bk = none → getVal es' bk = some (.num (min d c))) ∧
      (∀ n : Int, getVal es bk = some (.num n) →
        getVal es' bk = some (.num (min n c))) := by
    intro u bk d c hty htc
    obtain ⟨w, hw, hfin⟩ := limited_obj_trigger es es' u bk d c hnd hent hty htc
    constructor
    · intro habs
      rw [habs, cappedValue_none] at hw
      injection hw with hw1
      rw [← hw1] at hfin
      exact hfin
    · intro n hnum
      rw [hnum, cappedValue_num] at hw
      injection hw with hw1
      rw [← hw1] at hfin
      exact hfin
  refine ⟨es', hj, ?_, ?_, ?_⟩
  · intro hty
    have := hcase (.str "array") "maxItems" 10 5 hty rfl
    have h5 : (min (10 : Int) 5) = 5 := by norm_num
    rw [h5] at this
    exact this
  · intro hty
    have := hcase (.str "object") "maxProperties" 10 5 hty rfl
    have h5 : (min (10 : Int) 5) = 5 := by norm_num
    rw [h5] at this
    exact this
  · intro t ht hty
    have h20 : (min (100 : Int) 20) = 20 := by norm_num
    rcases ht with h1 | h1 | h1 <;> subst h1
    · have := hcase (.str "string") "maxLength" 100 20 hty rfl
      rw [h20] at this
      exact this
    · have := hcase (.str "number") "maxLength" 100 20 hty rfl
      rw [h20] at this
      exact this
    · have := hcase (.str "integer") "maxLength" 100 20 hty rfl
      rw [h20] at this
      exact this

/-- Witness for C1: evaluated at the node `{"type": "array", "maxItems": 7}`,
whose limited form is `{"type": "array", "maxItems": 5}`. -/
theorem C1_limiter_bound_formulas_witness :
    ∃ js, limit_complexity
        (JSON.obj [("type", JSON.str "array"), ("maxItems", JSON.num 7)]) =
        .ok js ∧
      ∃ es', js = .obj es' ∧ getVal es' "maxItems" = some (.num (min 7 5)) := by
  refine ⟨JSON.obj [("type", JSON.str "array"), ("maxItems", JSON.num 5)], rfl, ?_⟩
  obtain ⟨es', hj, h1, h2, h3⟩ :=
    C1_limiter_bound_formulas
      [("type", JSON.str "array"), ("maxItems", JSON.num 7)]
      (JSON.obj [("type", JSON.str "array"), ("maxItems", JSON.num 5)])
      (by unfold NodupKeys; decide) rfl
  exact ⟨es', hj, (h1 rfl).2 7 rfl⟩

/-- C3: a bound key that already holds a numeric value is never increased by
the Complexity Limiter, and any bound set at a node whose "type" triggers a
cap is at most the configured ceiling (`maxItems` 5, `maxProperties` 5,
`maxLength` 20). -/
theorem C3_limiter_never_increases
    (es : List (String × JSON)) (j' : JSON)
    (hnd : NodupKeys es)
    (h : limit_complexity (.obj es) = .ok j') :
    ∃ es', j' = .obj es' ∧
      (∀ k, (k = "maxItems" ∨ k = "maxProperties" ∨ k = "maxLength") →
        ∀ n : Int, getVal es k = some (.num n) →
          ∃ m : Int, getVal es' k = some (.num m) ∧ m ≤ n) ∧
      (getVal es "type" = some (.str "array") →
        ∃ w m, getVal es' "maxItems" = some w ∧ asNum w = some m ∧ m ≤ 5) ∧
      (getVal es "type" = some (.str "object") →
        ∃ w m, getVal es' "maxProperties" = some w ∧ asNum w = some m ∧ m ≤ 5) ∧
      (∀ t, (t = "string" ∨ t = "number" ∨ t = "integer") →
        getVal es "type" = some (.str t) →
        ∃ w m, getVal es' "maxLength" = some w ∧ asNum w = some m ∧ m ≤ 20) := by
  obtain ⟨es', hj, hent⟩ := lc_obj_inv h
  have htrigpart : ∀ (u : JSON) (bk : String) (d c : Int),
      getVal es "type" = some u → tyCap u = some (bk, d, c) →
      ∃ w m, getVal es' bk = some w ∧ asNum w = some m ∧ m ≤ c := by
    intro u bk d c hty htc
    obtain ⟨w, hw, hfin⟩ := limited_obj_trigger es es' u bk d c hnd hent hty htc
    obtain ⟨m, hm, hmc⟩ := cappedValue_le hw
    exact ⟨w, m, hfin, hm, hmc⟩
  refine ⟨es', hj, ?_, fun hty => htrigpart _ "maxItems" 10 5 hty rfl,
    fun hty => htrigpart _ "maxProperties" 10 5 hty rfl, ?_⟩
  · intro k _hk n hg
    by_cases htrig : ∃ u d c, getVal es "type" = some u ∧ tyCap u = some (k, d, c)
    · obtain ⟨u, d, c, hty, htc⟩ := htrig
      obtain ⟨w, hw, hfin⟩ := limited_obj_trigger es es' u k d c hnd hent hty htc
      rw [hg, cappedValue_num] at hw
      injection hw with hw1
      rw [← hw1] at hfin
      exact ⟨min n c, hfin, min_le_left n c⟩
    · push_neg at htrig
      obtain ⟨w, hlc, hfin⟩ := obj_key_value es es' k (.num n) hnd hent hg
        (fun u bk d c hty htc he => by
          rw [he] at htc
          exact htrig u d c hty htc)
      have hw : w = .num n := lc_scalar_inv hlc rfl
      rw [hw] at hfin
      exact ⟨n, hfin, le_refl n⟩
  · intro t ht hty
    rcases ht with h1 | h1 | h1 <;> subst h1
    · exact htrigpart _ "maxLength" 100 20 hty rfl
    · exact htrigpart _ "maxLength" 100 20 hty rfl
    · exact htrigpart _ "maxLength" 100 20 hty rfl

/-- Witness for C3: evaluated at `{"type": "object", "maxProperties": 9}`,
which the limiter lowers to 5 (so the bound neither increased nor exceeds 5). -/
theorem C3_limiter_never_increases_witness :
    ∃ js, limit_complexity
        (JSON.obj [("type", JSON.str "object"), ("maxProperties", JSON.num 9)]) =
        .ok js ∧
      ∃ es', js = .obj es' ∧
        (∃ m : Int, getVal es' "maxProperties" = some (.num m) ∧ m ≤ 9) ∧
        ∃ w m, getVal es' "maxProperties" = some w ∧ asNum w = some m ∧ m ≤ 5 := by
  refine ⟨JSON.obj [("type", JSON.str "object"), ("maxProperties", JSON.num 5)],
    rfl, ?_⟩
  obtain ⟨es', hj, hA, _hB, hC, _hD⟩ :=
    C3_limiter_never_increases
      [("type", JSON.str "object"), ("maxProperties", JSON.num 9)]
      (JSON.obj [("type", JSON.str "object"), ("maxProperties", JSON.num 5)])
      (by unfold NodupKeys; decide) rfl
  obtain ⟨m, hm, hle⟩ := hA "maxProperties" (Or.inr (Or.inl rfl)) 9 rfl
  exact ⟨es', hj, ⟨m, hm, hle⟩, hC rfl⟩

/-- C9: a node whose "type" maps to a list of type names (a JSON Schema
union) triggers no cap at all: none of `maxItems`, `maxProperties` or
`maxLength` is injected into the node. -/
theorem C9_union_type_bypasses_caps
    (es : List (String × JSON)) (ts : List JSON) (j' : JSON)
    (hnd : NodupKeys es)
    (hty : getVal es "type" = some (.arr ts))
    (h : limit_complexity (.obj es) = .ok j') :
    ∃ es', j' = .obj es' ∧
      ∀ k, (k = "maxItems" ∨ k = "maxProperties" ∨ k = "maxLength") →
        getVal es k = none → getVal es' k = none := by
  obtain ⟨es', hj, hent⟩ := lc_obj_inv h
  refine ⟨es', hj, ?_⟩
  intro k _hk habs
  have hpres : getVal es' k = getVal es k :=
    limitEntries_preserve es es es' k hent
      (fun u bk d c hm htc => by
        have hg := getVal_of_mem hnd hm
        rw [hty] at hg
        injection hg with h2
        rw [← h2] at htc
        simp [tyCap] at htc)
      (fun v hm => by
        have hg := getVal_of_mem hnd hm
        rw [habs] at hg
        simp at hg)
  rw [hpres, habs]

/-- Witness for C9: evaluated at `{"type": ["array", "object"]}`, which the
limiter returns unchanged, with no bound key injected. -/
theorem C9_union_type_bypasses_caps_witness :
    ∃ js, limit_complexity
        (JSON.obj [("type", JSON.arr [JSON.str "array", JSON.str "object"])]) =
        .ok js ∧
      ∃ es', js = .obj es' ∧ getVal es' "maxItems" = none ∧
        getVal es' "maxProperties" = none ∧ getVal es' "maxLength" = none := by
  refine ⟨JSON.obj [("type", JSON.arr [JSON.str "array", JSON.str "object"])],
    rfl, ?_⟩
  obtain ⟨es', hj, hall⟩ :=
    C9_union_type_bypasses_caps
      [("type", JSON.arr [JSON.str "array", JSON.str "object"])]
      [JSON.str "array", JSON.str "object"]
      (JSON.obj [("type", JSON.arr [JSON.str "array", JSON.str "object"])])
      (by unfold NodupKeys; decide) rfl rfl
  exact ⟨es', hj, hall "maxItems" (Or.inl rfl) rfl,
    hall "maxProperties" (Or.inr (Or.inl rfl)) rfl,
    hall "maxLength" (Or.inr (Or.inr rfl)) rfl⟩

/-- C4: the Complexity Limiter preserves structure: scalars are returned
unchanged, sequences are rewritten element-wise by the same transform, every
mapping value that is itself a mapping or sequence is recursed into
regardless of its key name, every entry under a key other than the three
bound keys is preserved up to recursive limiting, and no key is removed. -/
theorem C4_limiter_frame :
    (∀ j : JSON, isContainer j = false → limit_complexity j = .ok j) ∧
    (∀ (xs : List JSON) (j' : JSON), limit_complexity (.arr xs) = .ok j' →
      ∃ ys, j' = .arr ys ∧
        List.Forall₂ (fun x y => limit_complexity x = .ok y) xs ys) ∧
    (∀ (es : List (String × JSON)) (j' : JSON), NodupKeys es →
      limit_complexity (.obj es) = .ok j' →
      ∃ es', j' = .obj es' ∧
        (∀ k v, getVal es k = some v → isContainer v = true →
          ∃ w, limit_complexity v = .ok w ∧ getVal es' k = some w) ∧
        (∀ k v, getVal es k = some v →
          k ≠ "maxItems" → k ≠ "maxProperties" → k ≠ "maxLength" →
          ∃ w, limit_complexity v = .ok w ∧ getVal es' k = some w) ∧
        (∀ k, (getVal es k).isSome → (getVal es' k).isSome)) := by
  refine ⟨lc_scalar, ?_, ?_⟩
  · intro xs j' h
    obtain ⟨ys, hj, hitems⟩ := lc_arr_inv h
    exact ⟨ys, hj, limitItems_forall2 hitems⟩
  · intro es j' hnd h
    obtain ⟨es', hj, hent⟩ := lc_obj_inv h
    have hval : ∀ k v, getVal es k = some v →
        (∀ u bk d c, getVal es "type" = some u →
          tyCap u = some (bk, d, c) → bk ≠ k) →
        ∃ w, limit_complexity v = .ok w ∧ getVal es' k = some w :=
      fun k v hg hnt => obj_key_value es es' k v hnd hent hg hnt
    have hcontainer : ∀ k v, getVal es k = some v → isContainer v = true →
        ∃ w, limit_complexity v = .ok w ∧ getVal es' k = some w := by
      intro k v hg hcv
      by_cases htr : ∃ u d c, getVal es "type" = some u ∧ tyCap u = some (k, d, c)
      · exfalso
        obtain ⟨u, d, c, hty, htc⟩ := htr
        obtain ⟨w, hw, _⟩ := limited_obj_trigger es es' u k d c hnd hent hty htc
        rw [hg] at hw
        simp [cappedValue, asNum_of_container hcv] at hw
      · push_neg at htr
        exact hval k v hg (fun u bk d c hty htc he => by
          rw [he] at htc
          exact htr u d c hty htc)
    refine ⟨es', hj, hcontainer, ?_, ?_⟩
    · intro k v hg h1 h2 h3
      refine hval k v hg ?_
      intro u bk d c hty htc
      rcases tyCap_cases htc with ⟨_, hbk, _, _⟩ | ⟨_, hbk, _, _⟩ | ⟨_, hbk, _, _⟩ <;>
        rw [hbk]
      · exact Ne.symm h1
      · exact Ne.symm h2
      · exact Ne.symm h3
    · intro k hsome
      cases hg : getVal es k with
      | none =>
        rw [hg] at hsome
        simp at hsome
      | some v =>
        by_cases htr : ∃ u d c, getVal es "type" = some u ∧ tyCap u = some (k, d, c)
        · obtain ⟨u, d, c, hty, htc⟩ := htr
          obtain ⟨w, _, hfin⟩ := limited_obj_trigger es es' u k d c hnd hent hty htc
          rw [hfin]
          rfl
        · push_neg at htr
          obtain ⟨w, _, hfin⟩ := hval k v hg (fun u bk d c hty htc he => by
            rw [he] at htc
            exact htr u d c hty htc)
          rw [hfin]
          rfl

/-- Witness for C4: a scalar passes through unchanged, and in the node
`{"description": "d", "items": {"type": "integer"}}` the `items` value is
recursed into while the `description` entry is preserved. -/
theorem C4_limiter_frame_witness :
    limit_complexity (JSON.str "hello") = .ok (JSON.str "hello") ∧
    ∃ js, limit_complexity
        (JSON.obj [("description", JSON.str "d"),
                   ("items", JSON.obj [("type", JSON.str "integer")])]) =
        .ok js ∧
      ∃ es', js = .obj es' ∧
        (∃ w, limit_complexity (JSON.obj [("type", JSON.str "integer")]) = .ok w ∧
          getVal es' "items" = some w) ∧
        getVal es' "description" = some (JSON.str "d") := by
  obtain ⟨hscalar, _harr, hobj⟩ := C4_limiter_frame
  refine ⟨hscalar _ rfl, ?_⟩
  refine ⟨JSON.obj [("description", JSON.str "d"),
    ("items", JSON.obj [("type", JSON.str "integer"), ("maxLength", JSON.num 20)])],
    rfl, ?_⟩
  obtain ⟨es', hj, hcont, hother, _hsome⟩ :=
    hobj [("description", JSON.str "d"),
          ("items", JSON.obj [("type", JSON.str "integer")])]
      (JSON.obj [("description", JSON.str "d"),
        ("items", JSON.obj [("type", JSON.str "integer"), ("maxLength", JSON.num 20)])])
      (by unfold NodupKeys; decide) rfl
  refine ⟨es', hj, hcont "items" _ rfl rfl, ?_⟩
  obtain ⟨w, hw, hfin⟩ := hother "description" (JSON.str "d") rfl
    (by decide) (by decide) (by decide)
  rw [lc_scalar_inv hw rfl] at hfin
  exact hfin

/-- Well-formed JSON trees: every object node has pairwise distinct keys, as
is automatic for values produced by Python's json parser (Python dicts hold
each key once). -/
inductive WFj : JSON → Prop where
  | null : WFj .null
  | bool (b : Bool) : WFj (.bool b)
  | num (n : Int) : WFj (.num n)
  | str (s : String) : WFj (.str s)
  | arr (xs : List JSON) : (∀ x ∈ xs, WFj x) → WFj (.arr xs)
  | obj (es : List (String × JSON)) : NodupKeys es →
      (∀ k v, (k, v) ∈ es → WFj v) → WFj (.obj es)

/-- Trees on which every step of `limit_complexity` is a no-op: keys are
distinct, each triggered bound key already holds a value that is numerically
at most its ceiling, and all nested values are likewise limited. -/
inductive Limited : JSON → Prop where
  | null : Limited .null
  | bool (b : Bool) : Limited (.bool b)
  | num (n : Int) : Limited (.num n)
  | str (s : String) : Limited (.str s)
  | arr (xs : List JSON) : (∀ x ∈ xs, Limited x) → Limited (.arr xs)
  | obj (es : List (String × JSON)) :
      NodupKeys es →
      (∀ k v, (k, v) ∈ es → Limited v) →
      (∀ u bk d c, ("type", u) ∈ es → tyCap u = some (bk, d, c) →
        ∃ w n, getVal es bk = some w ∧ asNum w = some n ∧ ¬ c < n) →
      Limited (.obj es)

theorem forall2_mem_right {R : JSON → JSON → Prop} :
    ∀ {xs ys : List JSON}, List.Forall₂ R xs ys → ∀ y ∈ ys, ∃ x ∈ xs, R x y := by
  intro xs ys h
  induction h with
  | nil =>
    intro y hy
    simp at hy
  | cons hR hrest ih =>
    intro y hy
    rcases List.mem_cons.mp hy with h1 | h1
    · subst h1
      exact ⟨_, List.mem_cons_self _ _, hR⟩
    · obtain ⟨x, hx, hxy⟩ := ih y h1
      exact ⟨x, List.mem_cons_of_mem _ hx, hxy⟩

theorem limitItems_id (xs : List JSON)
    (h : ∀ x ∈ xs, limit_complexity x = .ok x) : limitItems xs = .ok xs := by
  induction xs with
  | nil => rfl
  | cons x xs ih =>
    simp only [limitItems, h x (List.mem_cons_self _ _),
      ih (fun y hy => h y (List.mem_cons_of_mem _ hy))]

theorem limitEntries_id (es : List (String × JSON)) (hnd : NodupKeys es)
    (hvals : ∀ k v, (k, v) ∈ es → limit_complexity v = .ok v)
    (hcaps : ∀ u bk d c, ("type", u) ∈ es → tyCap u = some (bk, d, c) →
      ∃ w n, getVal es bk = some w ∧ asNum w = some n ∧ ¬ c < n) :
    ∀ todo, (∀ p ∈ todo, p ∈ es) → limitEntries todo es = .ok es := by
  intro todo
  induction todo with
  | nil =>
    intro _
    rfl
  | cons hd rest ih =>
    obtain ⟨k, v⟩ := hd
    intro hsub
    have hmem : (k, v) ∈ es := hsub _ (List.mem_cons_self _ _)
    have hrest : ∀ p ∈ rest, p ∈ es := fun p hp => hsub p (List.mem_cons_of_mem _ hp)
    simp only [limitEntries]
    by_cases hk : k = "type"
    · subst hk
      cases htc : tyCap v with
      | some bdc =>
        obtain ⟨bk, d, c⟩ := bdc
        rw [if_pos rfl]
        simp only []
        obtain ⟨w, n, hw, hn, hnc⟩ := hcaps v bk d c hmem htc
        have hcb : capBound es bk d c = .ok es := by
          rw [capBound_eq, hw]
          simp only [cappedValue, hn]
          rw [if_neg hnc, setKey_same es bk w hw]
        rw [hcb]
        simp only []
        exact ih hrest
      | none =>
        rw [if_pos rfl]
        simp only []
        cases hcv : isContainer v with
        | true =>
          rw [if_pos rfl, hvals "type" v hmem]
          simp only []
          rw [setKey_same es "type" v (getVal_of_mem hnd hmem)]
          exact ih hrest
        | false =>
          rw [if_neg (by simp)]
          exact ih hrest
    · rw [if_neg hk]
      simp only []
      cases hcv : isContainer v with
      | true =>
        rw [if_pos rfl, hvals k v hmem]
        simp only []
        rw [setKey_same es k v (getVal_of_mem hnd hmem)]
        exact ih hrest
      | false =>
        rw [if_neg (by simp)]
        exact ih hrest

theorem lc_of_limited : ∀ {j : JSON}, Limited j → limit_complexity j = .ok j := by
  intro j hl
  induction hl with
  | null => rfl
  | bool b => rfl
  | num n => rfl
  | str s => rfl
  | arr xs hxs ih =>
    simp only [limit_complexity, limitItems_id xs ih]
  | obj es hnd hvals hcaps ih =>
    simp only [limit_complexity,
      limitEntries_id es hnd ih hcaps es (fun p hp => hp)]

theorem limited_of_lc : ∀ {j : JSON}, WFj j →
    ∀ j', limit_complexity j = .ok j' → Limited j' := by
  intro j hwf
  induction hwf with
  | null =>
    intro j' h
    injection h with h1
    rw [← h1]
    exact Limited.null
  | bool b =>
    intro j' h
    injection h with h1
    rw [← h1]
    exact Limited.bool b
  | num n =>
    intro j' h
    injection h with h1
    rw [← h1]
    exact Limited.num n
  | str s =>
    intro j' h
    injection h with h1
    rw [← h1]
    exact Limited.str s
  | arr xs hxs ih =>
    intro j' h
    obtain ⟨ys, hj, hitems⟩ := lc_arr_inv h
    subst hj
    refine Limited.arr ys ?_
    intro y hy
    obtain ⟨x, hx, hxy⟩ := forall2_mem_right (limitItems_forall2 hitems) y hy
    exact ih x hx y hxy
  | obj es hnd hvals ih =>
    intro j' h
    obtain ⟨es', hj, hent⟩ := lc_obj_inv h
    subst hj
    have hnd' : NodupKeys es' := limitEntries_nodup es es es' hent hnd
    refine Limited.obj es' hnd' ?_ ?_
    · intro k w hmem'
      have hg' : getVal es' k = some w := getVal_of_mem hnd' hmem'
      by_cases htr : ∃ u d c, getVal es "type" = some u ∧ tyCap u = some (k, d, c)
      · obtain ⟨u, d, c, hty, htc⟩ := htr
        obtain ⟨w2, hw2, hfin⟩ := limited_obj_trigger es es' u k d c hnd hent hty htc
        have hww : w = w2 := by
          rw [hg'] at hfin
          injection hfin
        obtain ⟨m, hm, _⟩ := cappedValue_le hw2
        rw [hww]
        cases w2 with
        | num n => exact Limited.num n
        | bool b => exact Limited.bool b
        | null => simp [asNum] at hm
        | str s => simp [asNum] at hm
        | arr zs => simp [asNum] at hm
        | obj fs => simp [asNum] at hm
      · push_neg at htr
        cases hg : getVal es k with
        | none =>
          have hpres : getVal es' k = getVal es k :=
            limitEntries_preserve es es es' k hent
              (fun u bk d c hm htc => fun he => by
                rw [he] at htc
                exact htr u d c (getVal_of_mem hnd hm) htc)
              (fun v hm => absurd (getVal_of_mem hnd hm) (by rw [hg]; simp))
          rw [hpres, hg] at hg'
          exact absurd hg' (by simp)
        | some v =>
          obtain ⟨w2, hlc2, hfin⟩ := obj_key_value es es' k v hnd hent hg
            (fun u bk d c hty htc he => by
              rw [he] at htc
              exact htr u d c hty htc)
          have hww : w = w2 := by
            rw [hg'] at hfin
            injection hfin
          rw [hww]
          exact ih k v (mem_of_getVal hg) w2 hlc2
    · intro u bk d c hmem' htc
      have hty' : getVal es' "type" = some u := getVal_of_mem hnd' hmem'
      cases hg : getVal es "type" with
      | none =>
        have hpres : getVal es' "type" = getVal es "type" :=
          limitEntries_preserve es es es' "type" hent
            (fun u0 bk0 d0 c0 _ htc0 => tyCap_bk_ne_type htc0)
            (fun v hm => absurd (getVal_of_mem hnd hm) (by rw [hg]; simp))
        rw [hpres, hg] at hty'
        exact absurd hty' (by simp)
      | some u0 =>
        obtain ⟨w0, hlc0, hfin0⟩ := obj_key_value es es' "type" u0 hnd hent hg
          (fun u1 bk1 d1 c1 _ htc1 => tyCap_bk_ne_type htc1)
        have huw : u = w0 := by
          rw [hty'] at hfin0
          injection hfin0
        obtain ⟨s, hs⟩ := tyCap_arg_str htc
        have hu0str : isContainer u0 = false := by
          have hsh := lc_shape hlc0
          rw [← huw, hs] at hsh
          exact hsh.symm
        have hu0 : u0 = u := by
          rw [huw, ← lc_scalar_inv hlc0 hu0str]
        obtain ⟨w1, hw1, hfin1⟩ :=
          limited_obj_trigger es es' u bk d c hnd hent (hu0 ▸ hg) htc
        obtain ⟨m, hm, hmc⟩ := cappedValue_le hw1
        exact ⟨w1, m, hfin1, hm, not_lt.mpr hmc⟩

/-- C2: the Complexity Limiter is idempotent: for every well-formed schema
tree `T`, running `limit_complexity` on the result of `limit_complexity T`
changes nothing (and an error is likewise stable under the composition). -/
theorem C2_limiter_idempotent (T : JSON) (hwf : WFj T) :
    (limit_complexity T).bind limit_complexity = limit_complexity T := by
  cases h : limit_complexity T with
  | ok T' =>
    have hlim : Limited T' := limited_of_lc hwf T' h
    simp [Except.bind, lc_of_limited hlim]
  | error e =>
    simp [Except.bind]

/-- Witness for C2: evaluated at the tree
`{"type": "array", "maxItems": 7}`. -/
theorem C2_limiter_idempotent_witness :
    WFj (JSON.obj [("type", JSON.str "array"), ("maxItems", JSON.num 7)]) ∧
    (limit_complexity
        (JSON.obj [("type", JSON.str "array"), ("maxItems", JSON.num 7)])).bind
        limit_complexity =
      limit_complexity
        (JSON.obj [("type", JSON.str "array"), ("maxItems", JSON.num 7)]) := by
  have hwf : WFj (JSON.obj [("type", JSON.str "array"), ("maxItems", JSON.num 7)]) := by
    refine WFj.obj _ (by unfold NodupKeys; decide) ?_
    intro k v hm
    simp at hm
    rcases hm with ⟨_, hv⟩ | ⟨_, hv⟩ <;> subst hv
    · exact WFj.str _
    · exact WFj.num _
  exact ⟨hwf, C2_limiter_idempotent _ hwf⟩

/-- Errors raised by `load_schema` and caught at the CLI boundary; both are
Python `ValueError`s (`json.JSONDecodeError` is a `ValueError` subclass). -/
inductive LoadError where
  | jsonDecodeError (text : String)
  | invalidSchema (input : String)

/-- `load_schema` (lines 13-27), parameterised over the filesystem
(`readFile input = none` models `FileNotFoundError` from `open`) and the
stdlib JSON parser (`parseJSON s = none` models `json.JSONDecodeError`),
both external collaborators of the program.  Only `FileNotFoundError`
triggers the inline-literal fallback; a parse error on an existing file's
contents propagates as raised. -/
def load_schema (readFile : String → Option String)
    (parseJSON : String → Option JSON) (input : String) : Except LoadError JSON :=
  match readFile input with
  | some contents =>
    match parseJSON contents with
    | some j => .ok j
    | none => .error (.jsonDecodeError contents)
  | none =>
    match parseJSON input with
    | some j => .ok j
    | none => .error (.invalidSchema input)

/-- The exit behaviour of `main` (lines 98-115): the exit status together
with the diagnostic printed to stderr, if any (`Sum.inl` is a loader
`ValueError` caught at lines 100-102, `Sum.inr` a generation or script
error caught at lines 113-115).  Seeding only configures the external
engine and does not affect this control flow. -/
def main (readFile : String → Option String) (parseJSON : String → Option JSON)
    (schemaArg : String) (script : Option String)
    (runScriptPhase : JSON → String → Except String Unit)
    (generatePhase : JSON → Except String Unit) :
    Nat × Option (Sum LoadError String) :=
  match load_schema readFile parseJSON schemaArg with
  | .error e => (1, some (.inl e))
  | .ok schema =>
    match (match script with
           | some s => runScriptPhase schema s
           | none => generatePhase schema) with
    | .error e => (1, some (.inr e))
    | .ok _ => (0, none)

/-- C5: the Schema Loader first reads the argument as a file and parses the
contents, returning the parsed value; on file-not-found it parses the
argument itself as a JSON literal, returning the parsed value; and it fails
with the `InvalidSchema` error exactly when the file is absent and the
literal parse fails too. -/
theorem C5_loader_file_then_literal
    (readFile : String → Option String) (parseJSON : String → Option JSON)
    (input : String) :
    (∀ contents j, readFile input = some contents → parseJSON contents = some j →
      load_schema readFile parseJSON input = .ok j) ∧
    (∀ j, readFile input = none → parseJSON input = some j →
      load_schema readFile parseJSON input = .ok j) ∧
    ((∃ e, load_schema readFile parseJSON input = .error (.invalidSchema e)) ↔
      (readFile input = none ∧ parseJSON input = none)) := by
  refine ⟨?_, ?_, ?_, ?_⟩
  · intro contents j h1 h2
    simp [load_schema, h1, h2]
  · intro j h1 h2
    simp [load_schema, h1, h2]
  · rintro ⟨e, he⟩
    cases h1 : readFile input with
    | some contents =>
      cases h2 : parseJSON contents with
      | some j => simp [load_schema, h1, h2] at he
      | none => simp [load_schema, h1, h2] at he
    | none =>
      cases h2 : parseJSON input with
      | some j => simp [load_schema, h1, h2] at he
      | none => exact ⟨rfl, rfl⟩
  · rintro ⟨h1, h2⟩
    exact ⟨input, by simp [load_schema, h1, h2]⟩

/-- Demo filesystem for the loader witnesses: one file, `schema.json`,
holding the text `filetext`. -/
def demoReadFile : String → Option String :=
  fun p => if p = "schema.json" then some "filetext" else none

/-- Demo JSON parser for the loader witnesses: both the file's text and the
inline text `inlinetext` parse to the schema mapping with `type: integer`;
everything else (in particular `not json` and `garbage`) fails to parse. -/
def demoParse : String → Option JSON :=
  fun s =>
    if s = "filetext" ∨ s = "inlinetext" then
      some (JSON.obj [("type", JSON.str "integer")])
    else none

/-- Witness for C5: the file path and the inline literal both load the
`type: integer` mapping, and an unparsable non-path fails with
`InvalidSchema`. -/
theorem C5_loader_file_then_literal_witness :
    load_schema demoReadFile demoParse "schema.json" =
      .ok (JSON.obj [("type", JSON.str "integer")]) ∧
    load_schema demoReadFile demoParse "inlinetext" =
      .ok (JSON.obj [("type", JSON.str "integer")]) ∧
    ∃ e, load_schema demoReadFile demoParse "not json" =
      .error (.invalidSchema e) := by
  obtain ⟨hfileA, _, _⟩ :=
    C5_loader_file_then_literal demoReadFile demoParse "schema.json"
  obtain ⟨_, hlitB, _⟩ :=
    C5_loader_file_then_literal demoReadFile demoParse "inlinetext"
  obtain ⟨_, _, hiffC⟩ :=
    C5_loader_file_then_literal demoReadFile demoParse "not json"
  exact ⟨hfileA "filetext" _ rfl rfl, hlitB _ rfl rfl, hiffC.mpr ⟨rfl, rfl⟩⟩

/-- C10: when the path names an existing file whose contents are malformed
JSON, the loader surfaces the parse error of the file contents directly —
the inline-literal interpretation is never attempted (the result does not
depend on whether the input string itself would parse) and the
`InvalidSchema`-labelled error is not produced. -/
theorem C10_malformed_file_no_fallback
    (readFile : String → Option String) (parseJSON : String → Option JSON)
    (input contents : String)
    (hfile : readFile input = some contents)
    (hbad : parseJSON contents = none) :
    load_schema readFile parseJSON input = .error (.jsonDecodeError contents) ∧
    ∀ e, load_schema readFile parseJSON input ≠ .error (.invalidSchema e) := by
  constructor
  · simp [load_schema, hfile, hbad]
  · intro e h
    simp [load_schema, hfile, hbad] at h

/-- Demo filesystem for the C10 witness: the file `bad.json` exists but
holds the unparsable text `garbage`. -/
def demoReadFileBad : String → Option String :=
  fun p => if p = "bad.json" then some "garbage" else none

/-- Witness for C10: loading `bad.json` raises the file's parse error even
though an inline interpretation exists for other inputs. -/
theorem C10_malformed_file_no_fallback_witness :
    load_schema demoReadFileBad demoParse "bad.json" =
      .error (.jsonDecodeError "garbage") ∧
    ∀ e, load_schema demoReadFileBad demoParse "bad.json" ≠
      .error (.invalidSchema e) :=
  C10_malformed_file_no_fallback demoReadFileBad demoParse "bad.json" "garbage"
    rfl rfl

/-- C6: the CLI exits 0 when loading and the selected phase (script
validation when a script was supplied, generation otherwise) succeed, and on
any caught error it prints that error to the diagnostic stream and exits 1. -/
theorem C6_exit_status
    (readFile : String → Option String) (parseJSON : String → Option JSON)
    (schemaArg : String) (script : Option String)
    (runScriptPhase : JSON → String → Except String Unit)
    (generatePhase : JSON → Except String Unit) :
    (∀ schema, load_schema readFile parseJSON schemaArg = .ok schema →
      (script = none → generatePhase schema = .ok () →
        main readFile parseJSON schemaArg script runScriptPhase generatePhase =
          (0, none)) ∧
      (∀ s, script = some s → runScriptPhase schema s = .ok () →
        main readFile parseJSON schemaArg script runScriptPhase generatePhase =
          (0, none)) ∧
      (script = none → ∀ e, generatePhase schema = .error e →
        main readFile parseJSON schemaArg script runScriptPhase generatePhase =
          (1, some (.inr e))) ∧
      (∀ s e, script = some s → runScriptPhase schema s = .error e →
        main readFile parseJSON schemaArg script runScriptPhase generatePhase =
          (1, some (.inr e)))) ∧
    (∀ e, load_schema readFile parseJSON schemaArg = .error e →
      main readFile parseJSON schemaArg script runScriptPhase generatePhase =
        (1, some (.inl e))) := by
  constructor
  · intro schema hload
    refine ⟨?_, ?_, ?_, ?_⟩
    · intro hs hgen
      subst hs
      simp [main, hload, hgen]
    · intro s hs hrun
      subst hs
      simp [main, hload, hrun]
    · intro hs e hgen
      subst hs
      simp [main, hload, hgen]
    · intro s e hs hrun
      subst hs
      simp [main, hload, hrun]
  · intro e hload
    simp [main, hload]

/-- Witness for C6: with the demo loader, generation succeeding gives exit
status 0, and an unloadable schema argument gives exit status 1 with the
loader error printed. -/
theorem C6_exit_status_witness :
    main demoReadFile demoParse "schema.json" none
      (fun _ _ => .ok ()) (fun _ => .ok ()) = (0, none) ∧
    main demoReadFile demoParse "not json" none
      (fun _ _ => .ok ()) (fun _ => .ok ()) =
      (1, some (.inl (.invalidSchema "not json"))) := by
  obtain ⟨hok, _⟩ :=
    C6_exit_status demoReadFile demoParse "schema.json" none
      (fun _ _ => .ok ()) (fun _ => .ok ())
  obtain ⟨_, herr⟩ :=
    C6_exit_status demoReadFile demoParse "not json" none
      (fun _ _ => .ok ()) (fun _ => .ok ())
  exact ⟨((hok _ rfl).1 rfl rfl), herr _ rfl⟩

/-- Outcome of one `subprocess.run([script, 'testcase.json'], ...)` call:
exit code and captured stdout/stderr of the external script. -/
structure ScriptResult where
  returncode : Int
  stdout : String
  stderr : String

/-- Report of a failed script invocation, as printed by lines 80-81 right
before `AssertionError` is raised: the failing instance (the contents of
`testcase.json` at that moment) and the script's captured output. -/
structure ScriptFailure where
  failingInstance : JSON
  stdoutCaptured : String
  stderrCaptured : String

/-- The test body of `run_test_script` (lines 71-83): write the instance to
`testcase.json`, invoke the script on that file (so the script's result is a
function of the instance just written), and raise on a non-zero exit code.
Returns the new contents of `testcase.json` and the outcome. -/
def test_instance (runScript : JSON → ScriptResult) (inst : JSON) :
    Option JSON × Except ScriptFailure Unit :=
  let fileContents := some inst
  let r := runScript inst
  if r.returncode ≠ 0 then
    (fileContents, .error ⟨inst, r.stdout, r.stderr⟩)
  else
    (fileContents, .ok ())

/-- Modelled from the spec: the generation engine behind `@given` (the
external strategy library, not part of the CLI source) drives the test body
strictly sequentially over the generated instances — instance `i+1` is not
generated until instance `i`'s validation completes, and an exception from
the body aborts the remaining run (spec sections 4.4 and 5).  The state
carried is the list of instances validated so far, in order, and the
current contents of `testcase.json`. -/
def driveScript (runScript : JSON → ScriptResult) :
    List JSON → List JSON → Option JSON →
    List JSON × Option JSON × Except ScriptFailure Unit
  | [], done, file => (done, file, .ok ())
  | inst :: rest, done, file =>
    match test_instance runScript inst with
    | (file', .error f) => (done ++ [inst], file', .error f)
    | (file', .ok _) => driveScript runScript rest (done ++ [inst]) file'

/-- `run_test_script` (lines 61-86) on a given stream of generated
instances: initially no instance has been validated and `testcase.json`
does not exist. -/
def run_test_script (runScript : JSON → ScriptResult) (insts : List JSON) :
    List JSON × Option JSON × Except ScriptFailure Unit :=
  driveScript runScript insts [] none

theorem driveScript_abort
    (runScript : JSON → ScriptResult) (bad : JSON) (post : List JSON)
    (hbad : (runScript bad).returncode ≠ 0) :
    ∀ (pre done : List JSON) (file : Option JSON),
      (∀ i ∈ pre, (runScript i).returncode = 0) →
      driveScript runScript (pre ++ bad :: post) done file =
        (done ++ pre ++ [bad], some bad,
          .error ⟨bad, (runScript bad).stdout, (runScript bad).stderr⟩) := by
  intro pre
  induction pre with
  | nil =>
    intro done file _
    simp only [List.nil_append, driveScript, test_instance]
    rw [if_pos hbad]
    simp
  | cons x pre ih =>
    intro done file hall
    simp only [List.cons_append, driveScript, test_instance]
    rw [if_neg (by simp [hall x (List.mem_cons_self _ _)])]
    simp only [List.append_eq]
    rw [ih (done ++ [x]) (some x)
      (fun i hi => hall i (List.mem_cons_of_mem _ hi))]
    simp

/-- C7: in the Script Runner, a non-zero exit code from the invoked script
aborts the whole remaining run at once: the instances validated are exactly
those up to and including the failing one (none of the later ones is
generated or validated), the failure carries the failing instance's content
and the script's captured stdout/stderr, and `testcase.json` still holds
the failing instance. -/
theorem C7_script_failure_aborts
    (runScript : JSON → ScriptResult) (pre : List JSON) (bad : JSON)
    (post : List JSON)
    (hpre : ∀ i ∈ pre, (runScript i).returncode = 0)
    (hbad : (runScript bad).returncode ≠ 0) :
    run_test_script runScript (pre ++ bad :: post) =
      (pre ++ [bad], some bad,
        .error ⟨bad, (runScript bad).stdout, (runScript bad).stderr⟩) := by
  unfold run_test_script
  rw [driveScript_abort runScript bad post hbad pre [] none hpre]
  simp

/-- Demo external script for the C7 witness: fails (exit code 1, with output
`out`/`err`) exactly on the instance `2`, succeeds silently otherwise. -/
def demoScript : JSON → ScriptResult :=
  fun j =>
    match j with
    | .num 2 => ⟨1, "out", "err"⟩
    | _ => ⟨0, "", ""⟩

/-- Witness for C7: of the four instances `0, 1, 2, 3`, only `0, 1, 2` are
validated; the run aborts at `2` with its captured output, and `3` is never
reached. -/
theorem C7_script_failure_aborts_witness :
    run_test_script demoScript
        [JSON.num 0, JSON.num 1, JSON.num 2, JSON.num 3] =
      ([JSON.num 0, JSON.num 1, JSON.num 2], some (JSON.num 2),
        .error ⟨JSON.num 2, "out", "err"⟩) :=
  C7_script_failure_aborts demoScript [JSON.num 0, JSON.num 1] (JSON.num 2)
    [JSON.num 3] (by decide) (by decide)

/-- `generate_json_instances` (lines 45-59): derive the limited schema and
drive the external strategy for the requested number of examples, printing
each generated instance; the value returned here is the list of printed
generated-instance lines. -/
def generate_json_instances (engine : JSON → Nat → List JSON)
    (schema : JSON) (num : Nat) : Except String (List JSON) :=
  match limit_complexity schema with
  | .ok limited => .ok (engine limited num)
  | .error e => .error e

/-- Modelled from the spec: the external generation capability
(`from_schema` plus `@settings(max_examples=num)`), which is not part of the
CLI source, lazily produces conforming instances and honours the
maximum-example count — driven with count `n` it runs the per-example body
exactly `n` times, on instances conforming to the schema it was built
from. -/
def EngineSound (engine : JSON → Nat → List JSON) (s : JSON)
    (conforms : JSON → Prop) : Prop :=
  ∀ n, (engine s n).length = n ∧ ∀ j ∈ engine s n, conforms j

/-- Modelled from the spec: JSON Schema conformance for the schema of the
end-to-end property — an instance of an `array`-typed schema whose `items`
are `integer`-typed and whose `maxItems` is `m` is a JSON array of at most
`m` integers. -/
def conformsIntArray (maxI : Nat) (j : JSON) : Prop :=
  ∃ xs, j = .arr xs ∧ xs.length ≤ maxI ∧ ∀ x ∈ xs, ∃ n : Int, x = .num n

/-- C8: end-to-end without a script, for the schema
`{"type": "array", "items": {"type": "integer"}}` with `--num 10`: the
limited schema carries `maxItems = 5` (and a spurious `maxLength` on the
integer item schema), generation emits exactly 10 generated-instance lines,
each a JSON array of at most 5 integers, and the run exits with status 0. -/
theorem C8_end_to_end_ten_arrays
    (engine : JSON → Nat → List JSON)
    (hsound : EngineSound engine
      (JSON.obj [("type", JSON.str "array"),
        ("items", JSON.obj [("type", JSON.str "integer"),
          ("maxLength", JSON.num 20)]),
        ("maxItems", JSON.num 5)])
      (conformsIntArray 5)) :
    ∃ out, generate_json_instances engine
        (JSON.obj [("type", JSON.str "array"),
          ("items", JSON.obj [("type", JSON.str "integer")])]) 10 = .ok out ∧
      out.length = 10 ∧
      (∀ j ∈ out, ∃ xs, j = .arr xs ∧ xs.length ≤ 5 ∧
        ∀ x ∈ xs, ∃ n : Int, x = .num n) ∧
      (∀ (readFile : String → Option String)
          (parseJSON : String → Option JSON) (arg : String)
          (rs : JSON → String → Except String Unit),
        load_schema readFile parseJSON arg =
          .ok (JSON.obj [("type", JSON.str "array"),
            ("items", JSON.obj [("type", JSON.str "integer")])]) →
        main readFile parseJSON arg none rs
          (fun schema =>
            match generate_json_instances engine schema 10 with
            | .ok _ => .ok ()
            | .error e => .error e) = (0, none)) := by
  have hlim : limit_complexity
      (JSON.obj [("type", JSON.str "array"),
        ("items", JSON.obj [("type", JSON.str "integer")])]) =
      .ok (JSON.obj [("type", JSON.str "array"),
        ("items", JSON.obj [("type", JSON.str "integer"),
          ("maxLength", JSON.num 20)]),
        ("maxItems", JSON.num 5)]) := rfl
  obtain ⟨hlen, hconf⟩ := hsound 10
  refine ⟨_, by rw [generate_json_instances, hlim], hlen, ?_, ?_⟩
  · intro j hj
    exact hconf j hj
  · intro readFile parseJSON arg rs hload
    simp [main, hload, generate_json_instances, hlim]

/-- Demo generation engine for the C8 witness: ignores the schema and yields
`n` copies of the empty array, which conform to the limited schema. -/
def demoEngine : JSON → Nat → List JSON :=
  fun _ n => List.replicate n (JSON.arr [])

/-- Demo JSON parser for the C8 witness: the file's text parses to the
array-of-integers schema of the end-to-end property. -/
def demoParseArr : String → Option JSON :=
  fun s =>
    if s = "filetext" then
      some (JSON.obj [("type", JSON.str "array"),
        ("items", JSON.obj [("type", JSON.str "integer")])])
    else none

/-- Witness for C8: the demo engine is sound for the limited schema, and the
run emits 10 lines, each an array of at most 5 integers, exiting 0. -/
theorem C8_end_to_end_ten_arrays_witness :
    ∃ out, generate_json_instances demoEngine
        (JSON.obj [("type", JSON.str "array"),
          ("items", JSON.obj [("type", JSON.str "integer")])]) 10 = .ok out ∧
      out.length = 10 ∧
      (∀ j ∈ out, ∃ xs, j = .arr xs ∧ xs.length ≤ 5 ∧
        ∀ x ∈ xs, ∃ n : Int, x = .num n) ∧
      main demoReadFile demoParseArr "schema.json" none (fun _ _ => .ok ())
        (fun schema =>
          match generate_json_instances demoEngine schema 10 with
          | .ok _ => .ok ()
          | .error e => .error e) = (0, none) := by
  have hsound : EngineSound demoEngine
      (JSON.obj [("type", JSON.str "array"),
        ("items", JSON.obj [("type", JSON.str "integer"),
          ("maxLength", JSON.num 20)]),
        ("maxItems", JSON.num 5)])
      (conformsIntArray 5) := by
    intro n
    constructor
    · simp [demoEngine]
    · intro j hj
      have hj' : j = JSON.arr [] := List.eq_of_mem_replicate hj
      exact ⟨[], hj', by simp, by simp⟩
  obtain ⟨out, hgen, hlen, hconf, hmain⟩ :=
    C8_end_to_end_ten_arrays demoEngine hsound
  exact ⟨out, hgen, hlen, hconf,
    hmain demoReadFile demoParseArr "schema.json" (fun _ _ => .ok ()) rfl⟩

end Cli
